import Mathlib

/-!
Verification development for the phone-number detection and SMS-matching
engine of the rbm-sms repository.

The embedded code comes from two TypeScript sources:
* `PhoneNumberDetector` (detection, normalization, validation, formatting
  of phone numbers found in free-form text), and
* `EnhancedSmsService.findAllMatchingSms` / `findMatchingSms` /
  `calculateSimilarity` (matching of upstream SMS records against a target
  phone number with graduated strategies).

Strings are modelled as `List Char` in the computational core (a Lean
`String` is a wrapper around its `data : List Char`); the regular
expressions of the source are modelled by a small executable matcher over
an explicit syntax tree, since every quantifier in the source's patterns
is bounded.  JavaScript `Array.prototype.sort` is modelled by the stable
`List.insertionSort` (ECMAScript requires a stable sort); the comparator
`(a, b) => time(b) - time(a)` corresponds to the relation
`time(b) ≤ time(a)`.  `new Date(s).getTime()` is kept abstract as a
parameter `gT : String → Int`, covering every way the timestamp strings
may parse to comparable time values.
-/

/-- Decides `\d`, i.e. the characters `'0'`(48) through `'9'`(57). -/
def isDigitCh (c : Char) : Bool := 48 ≤ c.toNat && c.toNat ≤ 57

/-- Model of the whitespace class `\s` for the characters that occur here. -/
def isWsCh (c : Char) : Bool := c == ' ' || c == '\t' || c == '\n' || c == '\r'

/-- Characters kept by `word.replace(/[^\d+()-.\s]/g, '')`: digits, `'+'`,
`'('` (40), the class range `')'`(41)–`'.'`(46) (i.e. `)*+,-.`), and
whitespace. -/
def keepDetect (c : Char) : Bool :=
  isDigitCh c || c == '+' || c == '(' || (41 ≤ c.toNat && c.toNat ≤ 46) || isWsCh c

/-- Characters kept by `phoneNumber.replace(/[^\d+]/g, '')`. -/
def keepDigitPlus (c : Char) : Bool := isDigitCh c || c == '+'

/-- Number of digit characters in a list. -/
def countD (l : List Char) : Nat := l.countP isDigitCh

/-- Model of `clean.startsWith('+')`: the first character is `'+'` (an
empty string starts with nothing). -/
def startsWithPlus (l : List Char) : Bool := l.headD ' ' == '+'

/-- Character classes occurring in the source's regular expressions. -/
inductive CC where
  | digit : CC
  | d19 : CC
  | d29 : CC
  | d39 : CC
  | d69 : CC
  | sep : CC
  | ch (c : Char) : CC

/-- Membership test of a character class: `digit` is `[0-9]`, `d19` is
`[1-9]`, `d29` is `[2-9]`, `d39` is `[3-9]`, `d69` is `[6-9]`, `sep` is
`[-.\s]`, and `ch c` is the literal character `c`. -/
def CC.test : CC → Char → Bool
  | .digit, c => isDigitCh c
  | .d19, c => 49 ≤ c.toNat && c.toNat ≤ 57
  | .d29, c => 50 ≤ c.toNat && c.toNat ≤ 57
  | .d39, c => 51 ≤ c.toNat && c.toNat ≤ 57
  | .d69, c => 54 ≤ c.toNat && c.toNat ≤ 57
  | .sep, c => c == '-' || c == '.' || isWsCh c
  | .ch a, c => c == a

/-- A class consisting of digit characters only. -/
def CC.digitOnly : CC → Bool
  | .digit => true
  | .d19 => true
  | .d29 => true
  | .d39 => true
  | .d69 => true
  | .sep => false
  | .ch a => isDigitCh a

/-- Syntax of the source's (anchored, star-free) regular expressions.
Every quantifier in the source's patterns is bounded, so `?` (`opt`) and
concatenation suffice: `r{lo, hi}` is desugared below into `lo` copies of
`r` followed by `hi - lo` optional copies. -/
inductive RE where
  | eps : RE
  | cls (cc : CC) : RE
  | cat (r q : RE) : RE
  | opt (r : RE) : RE

/-- Backtracking matcher: `run r s` is the list of suffixes of `s` left
over after matching some prefix of `s` against `r` (with multiplicity;
only membership matters). -/
def run : RE → List Char → List (List Char)
  | .eps, s => [s]
  | .cls _, [] => []
  | .cls cc, c :: t => if cc.test c then [t] else []
  | .cat r q, s => (run r s).flatMap (fun t => run q t)
  | .opt r, s => run r s ++ [s]

/-- Full anchored match (`^…$`, as all patterns of the source are written):
the whole input is consumed. -/
def rmatch (r : RE) (s : List Char) : Bool := decide ([] ∈ run r s)

/-- Least possible number of digit characters consumed by a match of `r`. -/
def minDigits : RE → Nat
  | .eps => 0
  | .cls cc => if cc.digitOnly then 1 else 0
  | .cat r q => minDigits r + minDigits q
  | .opt _ => 0

/-- Exactly `n` copies of `r`: the desugaring of `r{n}`. -/
def reExact (r : RE) : Nat → RE
  | 0 => RE.eps
  | n + 1 => RE.cat r (reExact r n)

/-- Up to `n` copies of `r`: the desugaring of `r{0,n}` as `(r (r …)?)?`. -/
def reUpTo (r : RE) : Nat → RE
  | 0 => RE.eps
  | n + 1 => RE.opt (RE.cat r (reUpTo r n))

/-- Bounded repetition `r{lo, lo+ex}`. -/
def reRep (r : RE) (lo ex : Nat) : RE := RE.cat (reExact r lo) (reUpTo r ex)

/-- Concatenation of a list of expressions. -/
def reSeq (l : List RE) : RE := l.foldr RE.cat RE.eps

/-- Literal character expression. -/
def chr (c : Char) : RE := RE.cls (CC.ch c)

/-- Optional expression `r?`. -/
def ropt (r : RE) : RE := RE.opt r

/-- Digit class `\d` as an expression. -/
def dC : RE := RE.cls CC.digit

/-- Separator class `[-.\s]` as an expression. -/
def sepC : RE := RE.cls CC.sep

/-- US/Canada: `^(\+?1[-.\s]?)?\(?([0-9]{3})\)?[-.\s]?([0-9]{3})[-.\s]?([0-9]{4})$`. -/
def patUS : RE :=
  reSeq [ropt (reSeq [ropt (chr '+'), chr '1', ropt sepC]),
    ropt (chr '('), reRep dC 3 0, ropt (chr ')'), ropt sepC,
    reRep dC 3 0, ropt sepC, reRep dC 4 0]

/-- International: `^(\+[1-9]\d{1,3}[-.\s]?)([0-9]{6,14})$`. -/
def patIntl : RE :=
  reSeq [chr '+', RE.cls CC.d19, reRep dC 1 2, ropt sepC, reRep dC 6 8]

/-- Generic: `^(\+?[1-9]\d{0,3}[-.\s]?)?([0-9]{6,14})$`. -/
def patGeneric : RE :=
  reSeq [ropt (reSeq [ropt (chr '+'), RE.cls CC.d19, reRep dC 0 3, ropt sepC]),
    reRep dC 6 8]

/-- Bangladesh: `^(\+?880[-.\s]?)?0?1[3-9]\d{8}$`. -/
def patBD : RE :=
  reSeq [ropt (reSeq [ropt (chr '+'), chr '8', chr '8', chr '0', ropt sepC]),
    ropt (chr '0'), chr '1', RE.cls CC.d39, reRep dC 8 0]

/-- India: `^(\+?91[-.\s]?)?[6-9]\d{9}$`. -/
def patIN : RE :=
  reSeq [ropt (reSeq [ropt (chr '+'), chr '9', chr '1', ropt sepC]),
    RE.cls CC.d69, reRep dC 9 0]

/-- UK: `^(\+?44[-.\s]?)?0?[1-9]\d{8,9}$`. -/
def patUK : RE :=
  reSeq [ropt (reSeq [ropt (chr '+'), chr '4', chr '4', ropt sepC]),
    ropt (chr '0'), RE.cls CC.d19, reRep dC 8 1]

/-- Simple numeric: `^\d{10,15}$`. -/
def patNumeric : RE := reRep dC 10 5

/-- The ordered pattern list `PHONE_PATTERNS` of `PhoneNumberDetector`. -/
def PHONE_PATTERNS : List RE :=
  [patUS, patIntl, patGeneric, patBD, patIN, patUK, patNumeric]

/-- Normalizer test `^[2-9]\d{9}$`. -/
def reUS10 : RE := reSeq [RE.cls CC.d29, reRep dC 9 0]

/-- Normalizer test `^1[2-9]\d{9}$`. -/
def reUS11 : RE := reSeq [chr '1', RE.cls CC.d29, reRep dC 9 0]

/-- Normalizer test `^01[3-9]\d{8}$`. -/
def reBD11 : RE := reSeq [chr '0', chr '1', RE.cls CC.d39, reRep dC 8 0]

/-- Normalizer test `^8801[3-9]\d{8}$`. -/
def reBD13 : RE := reSeq [chr '8', chr '8', chr '0', chr '1', RE.cls CC.d39, reRep dC 8 0]

/-- Normalizer test `^[6-9]\d{9}$`. -/
def reIN10 : RE := reSeq [RE.cls CC.d69, reRep dC 9 0]

/-- Normalizer test `^91[6-9]\d{9}$`. -/
def reIN12 : RE := reSeq [chr '9', chr '1', RE.cls CC.d69, reRep dC 9 0]

/-- Model of `phoneNumber.replace(/[^\d+]/g, '')`. -/
def stripNonDigitPlus (l : List Char) : List Char := l.filter keepDigitPlus

/-- `PhoneNumberDetector.normalizePhoneNumber`, translated branch for
branch (the guards of the source combine a length check, a `startsWith`
check and a regular-expression test; `clean.substring(1)` is `drop 1`). -/
def normalizePhoneNumber (p : List Char) : Option (List Char) :=
  let clean := stripNonDigitPlus p
  if startsWithPlus clean then some clean
  else if clean.length == 10 && rmatch reUS10 clean then
    some ('+' :: '1' :: clean)
  else if clean.length == 11 && ['1'].isPrefixOf clean && rmatch reUS11 clean then
    some ('+' :: clean)
  else if clean.length == 11 && ['0', '1'].isPrefixOf clean && rmatch reBD11 clean then
    some ('+' :: '8' :: '8' :: '0' :: clean.drop 1)
  else if clean.length == 13 && ['8', '8', '0'].isPrefixOf clean && rmatch reBD13 clean then
    some ('+' :: clean)
  else if clean.length == 10 && rmatch reIN10 clean then
    some ('+' :: '9' :: '1' :: clean)
  else if clean.length == 12 && ['9', '1'].isPrefixOf clean && rmatch reIN12 clean then
    some ('+' :: clean)
  else if 10 ≤ clean.length ∧ clean.length ≤ 15 then
    some (if startsWithPlus clean then clean else '+' :: clean)
  else none

/-- `PhoneNumberDetector.isValidPhoneNumber`. -/
def isValidPhoneNumber (p : List Char) : Bool :=
  match normalizePhoneNumber p with
  | some n => 11 ≤ n.length && n.length ≤ 16
  | none => false

/-- Model of `word.replace(/[^\d+()-.\s]/g, '')` inside the detector. -/
def cleanWord (w : List Char) : List Char := w.filter keepDetect

/-- Splits a character list at every whitespace character, keeping the
(possibly empty) fragments between separators. -/
def wordsAux : List Char → List Char → List (List Char)
  | [], cur => [cur.reverse]
  | c :: t, cur =>
    if isWsCh c then cur.reverse :: wordsAux t []
    else wordsAux t (c :: cur)

/-- Model of `text.split(/\s+/)`.  Splitting at every separator keeps an
empty token for each adjacent pair of separators where JavaScript
collapses the run, but an empty token matches none of the patterns, so
the detector's behaviour is unchanged. -/
def words (text : String) : List (List Char) := wordsAux text.data []

/-- Body of the per-word loop of `detectPhoneNumbers`: test the cleaned
word against the patterns in order, stop at the first match, normalize,
and append unless the number is already present. -/
def detectStep (acc : List (List Char)) (w : List Char) : List (List Char) :=
  let cw := cleanWord w
  match PHONE_PATTERNS.find? (fun p => rmatch p cw) with
  | some _ =>
    match normalizePhoneNumber cw with
    | some n => if acc.contains n then acc else acc ++ [n]
    | none => acc
  | none => acc

/-- `PhoneNumberDetector.detectPhoneNumbers`. -/
def detectPhoneNumbers (text : String) : List String :=
  ((words text).foldl detectStep []).map String.mk

/-- `PhoneNumberDetector.formatPhoneNumber`: display templates per country
code, falling back to the raw input when normalization fails and to the
bare normalized form for unrecognized country codes. -/
def formatPhoneNumber (p : List Char) : List Char :=
  match normalizePhoneNumber p with
  | none => p
  | some normalized =>
    if ['+', '1'].isPrefixOf normalized && normalized.length == 12 then
      let num := normalized.drop 2
      '+' :: '1' :: ' ' :: '(' :: (num.take 3 ++ [')', ' '] ++ ((num.drop 3).take 3) ++ ['-'] ++ num.drop 6)
    else if ['+', '8', '8', '0'].isPrefixOf normalized && normalized.length == 14 then
      let num := normalized.drop 4
      '+' :: '8' :: '8' :: '0' :: ' ' :: (num.take 4 ++ ['-'] ++ num.drop 4)
    else if ['+', '9', '1'].isPrefixOf normalized && normalized.length == 13 then
      let num := normalized.drop 3
      '+' :: '9' :: '1' :: ' ' :: (num.take 5 ++ ['-'] ++ num.drop 5)
    else normalized

/-- The record shape returned by the upstream SMS API. -/
structure SmsApiResponse where
  country : String
  date : String
  number : String
  sender : String
  text : String
  valid : Bool
deriving DecidableEq

/-- Model of `s.replace(/[^\d]/g, '')` applied to a record field. -/
def digitsOnly (s : String) : List Char := s.data.filter isDigitCh

/-- Model of `s.slice(-k)` for `k ≤ s.length`: the last `k` characters. -/
def lastN (k : Nat) (l : List Char) : List Char := l.drop (l.length - k)

/-- Strategy 1 of the matcher: exact match of the digits-only numbers. -/
def strat1 (clean : List Char) (sms : SmsApiResponse) : Bool :=
  digitsOnly sms.number == clean

/-- Strategy 2 of the matcher: equality after stripping 1, 2 or 3 leading
digits from either side. -/
def strat2 (clean : List Char) (sms : SmsApiResponse) : Bool :=
  let n := digitsOnly sms.number
  n == clean.drop 1 || n == clean.drop 2 || n == clean.drop 3 ||
    clean == n.drop 1 || clean == n.drop 2 || clean == n.drop 3

/-- Strategy 3 of the matcher: equality of the last 10, 9, 8 or 7 digits
whenever both numbers are long enough. -/
def strat3 (clean : List Char) (sms : SmsApiResponse) : Bool :=
  let n := digitsOnly sms.number
  [10, 9, 8, 7].any (fun k =>
    decide (k ≤ n.length) && decide (k ≤ clean.length) && (lastN k n == lastN k clean))

/-- `EnhancedSmsService.calculateSimilarity`: characters compared from the
string ends over the shorter length, divided by the longer length.  The
source computes in floating point; exact rationals are used here. -/
def calculateSimilarity (s1 s2 : List Char) : ℚ :=
  let maxLength := max s1.length s2.length
  if maxLength = 0 then 1
  else (((s1.reverse.zip s2.reverse).countP (fun pr => pr.1 == pr.2) : ℕ) : ℚ) / (maxLength : ℚ)

/-- Strategy 4 (fuzzy, legacy single-match path only): similarity above
the 0.85 threshold. -/
def strat4 (clean : List Char) (sms : SmsApiResponse) : Bool :=
  decide (calculateSimilarity clean (digitsOnly sms.number) > 0.85)

/-- The duplicate-avoiding accumulation of one strategy's matches:
`matches.forEach(...)` pushes a match unless a record with the same
`(number, date, text)` triple is already present. -/
def addMatches (acc : List SmsApiResponse) (ms : List SmsApiResponse) : List SmsApiResponse :=
  ms.foldl (fun acc m =>
    if acc.any (fun e => e.number == m.number && e.date == m.date && e.text == m.text)
    then acc else acc ++ [m]) acc

/-- Model of `data.sort((a, b) => new Date(b.date).getTime() - new
Date(a.date).getTime())`: a stable sort placing larger `gT`-values first,
where `gT` stands for `new Date(_).getTime()`. -/
def sortByDateDesc (gT : String → Int) (l : List SmsApiResponse) : List SmsApiResponse :=
  @List.insertionSort _ (fun a b => gT b.date ≤ gT a.date) (fun _ _ => Int.decLe _ _) l

/-- `EnhancedSmsService.findAllMatchingSms`.  The source iterates
`for (let i = 0; i < strategies.length; i++)`, accumulating matches, and
breaks when `matchingMessages.length > 0 && i < 2`; the nested
conditionals below are that control flow unrolled. -/
def findAllMatchingSms (gT : String → Int) (smsData : List SmsApiResponse)
    (phoneNumber : String) : List SmsApiResponse :=
  let clean := digitsOnly phoneNumber
  let sorted := sortByDateDesc gT smsData
  let m1 := addMatches [] (sorted.filter (strat1 clean))
  let acc :=
    if m1.length > 0 then m1
    else
      let m2 := addMatches m1 (sorted.filter (strat2 clean))
      if m2.length > 0 then m2
      else addMatches m2 (sorted.filter (strat3 clean))
  sortByDateDesc gT acc

/-- `EnhancedSmsService.findMatchingSms` (legacy single-match path): the
first record found by the first strategy that finds anything, fuzzy
strategy 4 last. -/
def findMatchingSms (gT : String → Int) (smsData : List SmsApiResponse)
    (phoneNumber : String) : Option SmsApiResponse :=
  let clean := digitsOnly phoneNumber
  let sorted := sortByDateDesc gT smsData
  match sorted.find? (strat1 clean) with
  | some m => some m
  | none =>
    match sorted.find? (strat2 clean) with
    | some m => some m
    | none =>
      match sorted.find? (strat3 clean) with
      | some m => some m
      | none => sorted.find? (strat4 clean)

/-- State of the caller's record array after `findAllMatchingSms` returns:
`smsData.sort(...)` sorts the caller's array in place. -/
def findAllMatchingSms_inputAfter (gT : String → Int)
    (smsData : List SmsApiResponse) : List SmsApiResponse :=
  sortByDateDesc gT smsData

/-- State of the caller's record array after `findMatchingSms` returns:
the legacy path performs the same in-place sort. -/
def findMatchingSms_inputAfter (gT : String → Int)
    (smsData : List SmsApiResponse) : List SmsApiResponse :=
  sortByDateDesc gT smsData

/-- Formalises the side condition of the claim about texts without long
digit sequences: the length of the longest run of consecutive digit
characters. -/
def maxDigitRunAux : List Char → Nat → Nat → Nat
  | [], cur, best => max cur best
  | c :: t, cur, best =>
    if isDigitCh c then maxDigitRunAux t (cur + 1) best
    else maxDigitRunAux t 0 (max cur best)

/-- Length of the longest run of consecutive digit characters in a string. -/
def maxDigitRun (s : String) : Nat := maxDigitRunAux s.data 0 0

/-- Number of digit characters in a string. -/
def digitCount (s : String) : Nat := countD s.data

/-- Constant time parser: every timestamp compares equal (the stable sort
then keeps the original order, as JavaScript's does). -/
def gtZero : String → Int := fun _ => 0

/-- Time parser used to exhibit reordering: longer date strings are more
recent. -/
def tsLen : String → Int := fun s => (s.length : Int)

/-- Older record of the pair exhibiting the in-place sort. -/
def smsEarly : SmsApiResponse := ⟨"US", "1", "111", "s", "t1", true⟩

/-- Newer record of the pair exhibiting the in-place sort. -/
def smsLate : SmsApiResponse := ⟨"US", "22", "222", "s", "t2", true⟩

/-- A record whose digits-only number equals the cleaned target
`1234567890` exactly (strategy 1). -/
def smsExactRec : SmsApiResponse := ⟨"US", "d1", "1234567890", "s", "t1", true⟩

/-- A record matching the target `1234567890` only via strategy 2 (its
number is the target with the leading digit removed). -/
def smsCcRec : SmsApiResponse := ⟨"US", "d2", "234567890", "s", "t2", true⟩

/-- Country-code noise: matches the target `1234567890` via strategy 2
(record number carries a `880` country code), but not via strategy 1. -/
def smsNoiseBD : SmsApiResponse := ⟨"BD", "d1", "8801234567890", "s", "t1", true⟩

/-- The unique exact (strategy 1) match for target `1234567890`. -/
def smsTargetRec : SmsApiResponse := ⟨"US", "d2", "1234567890", "s", "t2", true⟩

/-- Suffix noise: shares no strategy-1 match with the target. -/
def smsNoiseSuffix : SmsApiResponse := ⟨"X", "d3", "7701234999999", "s", "t3", true⟩

/-- A record matching target `1234567890` only via strategy 3 (shared last
ten digits under three extra leading digits). -/
def smsSuffixRec : SmsApiResponse := ⟨"X", "d1", "00051234567890", "s", "t1", true⟩

/-! ## Helper lemmas -/

/-- Accumulating matches never shortens the accumulator. -/
theorem length_le_addMatches (ms : List SmsApiResponse) :
    ∀ acc : List SmsApiResponse, acc.length ≤ (addMatches acc ms).length := by
  induction ms with
  | nil => intro acc; simp [addMatches]
  | cons m ms ih =>
    intro acc
    show acc.length ≤ (addMatches (if acc.any _ then acc else acc ++ [m]) ms).length
    refine le_trans ?_ (ih _)
    split
    · exact le_refl _
    · simp

/-- Accumulation into an empty accumulator is empty only for an empty
match list. -/
theorem addMatches_nil_eq_nil_iff (ms : List SmsApiResponse) :
    addMatches [] ms = [] ↔ ms = [] := by
  cases ms with
  | nil => simp [addMatches]
  | cons m ms =>
    constructor
    · intro h
      have h1 : (1 : Nat) ≤ (addMatches [] (m :: ms)).length := by
        have : addMatches [] (m :: ms) = addMatches [m] ms := by
          simp [addMatches]
        rw [this]
        exact le_trans (by simp) (length_le_addMatches ms [m])
      rw [h] at h1
      simp at h1
    · intro h; cases h

/-! ## C10: the display formatter never fails -/

/-- C10: for every input on which normalization fails
(`normalizePhoneNumber` returns `null`), `formatPhoneNumber` returns the
input itself unchanged — the formatter never fails at the public
interface. -/
theorem c10_format_returns_input_on_normalize_failure (p : List Char)
    (h : normalizePhoneNumber p = none) : formatPhoneNumber p = p := by
  unfold formatPhoneNumber
  rw [h]

/-- Witness for C10 at the concrete rejected input `"abc"`. -/
theorem c10_format_returns_input_on_normalize_failure_witness :
    normalizePhoneNumber "abc".data = none ∧ formatPhoneNumber "abc".data = "abc".data :=
  ⟨by decide, c10_format_returns_input_on_normalize_failure "abc".data (by decide)⟩

/-! ## C9: findAll output is sorted by timestamp descending -/

/-- C9: for every time parser (covering every record set whose timestamp
strings parse to comparable time values), the output of
`findAllMatchingSms` is sorted by timestamp in descending order. -/
theorem c9_findAll_sorted_desc (gT : String → Int) (data : List SmsApiResponse)
    (target : String) :
    List.Sorted (fun a b => gT b.date ≤ gT a.date) (findAllMatchingSms gT data target) := by
  haveI : IsTotal SmsApiResponse (fun a b => gT b.date ≤ gT a.date) :=
    ⟨fun _ _ => le_total _ _⟩
  haveI : IsTrans SmsApiResponse (fun a b => gT b.date ≤ gT a.date) :=
    ⟨fun _ _ _ h1 h2 => le_trans h2 h1⟩
  exact List.sorted_insertionSort _ _

/-! ## C4: purity of the matchers with respect to their inputs -/

/-- C4 counterexample: the caller's record array is not left unchanged —
`smsData.sort(...)` inside the matcher reorders it in place. -/
theorem c4_input_reordered_cex :
    findAllMatchingSms_inputAfter tsLen [smsEarly, smsLate] ≠ [smsEarly, smsLate] := by
  decide

/-- C4 amended: `findAllMatchingSms` and `findMatchingSms` read and write
no state other than via their arguments and result, but they permute the
input record array in place (sorting it by timestamp descending); the
multiset of input records is preserved, though not their order. -/
theorem c4_matchers_permute_input_in_place (gT : String → Int)
    (data : List SmsApiResponse) :
    (findAllMatchingSms_inputAfter gT data).Perm data ∧
      (findMatchingSms_inputAfter gT data).Perm data :=
  ⟨List.perm_insertionSort _ _, List.perm_insertionSort _ _⟩

/-! ## C2: the bare-ten-digit example starting with 9 -/

/-- C2 counterexample: `detect("Call me at 9876543210")` is not
`["+919876543210"]`. -/
theorem c2_india_example_cex :
    detectPhoneNumbers "Call me at 9876543210" ≠ ["+919876543210"] := by decide

/-- C2 amended: `detect("Call me at 9876543210")` returns
`["+19876543210"]` — the US/Canada 10-digit branch (leading digit 2–9)
precedes the India branch in `normalizePhoneNumber` and captures every
bare 10-digit token with leading digit 6–9, so the India heuristic is
unreachable for such tokens and the number is prefixed `+1`, not `+91`. -/
theorem c2_us_branch_precedes_india :
    detectPhoneNumbers "Call me at 9876543210" = ["+19876543210"] := by decide

/-! ## C5 counterexample and C3 counterexample -/

/-- C5 counterexample: the text `"123-456-7890"` has no run of consecutive
digit characters longer than 4, yet `detect` returns a number — separators
inside a single token are stripped before the patterns are tested. -/
theorem c5_short_digit_runs_cex :
    maxDigitRun "123-456-7890" ≤ 6 ∧ detectPhoneNumbers "123-456-7890" ≠ [] := by
  decide

/-- C3 counterexample: the token `"+12345678"` (9 characters) matches the
international pattern and is surfaced by `detect` unchanged — its
normalized form has length 9, outside the claimed 11–16 range, because
`detectPhoneNumbers` never consults `isValidPhoneNumber`. -/
theorem c3_length_invariant_cex :
    ¬ (∀ n ∈ detectPhoneNumbers "+12345678", 11 ≤ n.length ∧ n.length ≤ 16) := by
  decide

/-! ## C1: strategy accumulation in findAll -/

/-- C1 counterexample: with target `+1234567890`, strategy 1 matches
`smsExactRec`, and `smsCcRec` matches strategy 2; the claim says strategy
2 is still applied and may add it, but `findAllMatchingSms` stops after
strategy 1 (`matchingMessages.length > 0 && i < 2` breaks at `i = 0`) and
`smsCcRec` is not returned. -/
theorem c1_strategy2_skipped_cex :
    ((sortByDateDesc gtZero [smsExactRec, smsCcRec]).filter
        (strat1 (digitsOnly "+1234567890")) ≠ []) ∧
    strat2 (digitsOnly "+1234567890") smsCcRec = true ∧
    smsCcRec ∈ [smsExactRec, smsCcRec] ∧
    smsCcRec ∉ findAllMatchingSms gtZero [smsExactRec, smsCcRec] "+1234567890" := by
  decide

/-- C1 amended: the strategies of `findAllMatchingSms` short-circuit at
the first one that produces any match.  If strategy 1 (exact) matches at
least one record, strategies 2 and 3 are both skipped and the result is
strategy 1's matches alone; if strategy 1 matches nothing and strategy 2
matches at least one record, strategy 3 is skipped; strategy 3 runs only
when strategies 1 and 2 each produced no matches. -/
theorem c1_first_matching_strategy_wins (gT : String → Int)
    (data : List SmsApiResponse) (target : String) :
    ((sortByDateDesc gT data).filter (strat1 (digitsOnly target)) ≠ [] →
      findAllMatchingSms gT data target =
        sortByDateDesc gT (addMatches []
          ((sortByDateDesc gT data).filter (strat1 (digitsOnly target))))) ∧
    ((sortByDateDesc gT data).filter (strat1 (digitsOnly target)) = [] →
      (sortByDateDesc gT data).filter (strat2 (digitsOnly target)) ≠ [] →
      findAllMatchingSms gT data target =
        sortByDateDesc gT (addMatches []
          ((sortByDateDesc gT data).filter (strat2 (digitsOnly target))))) ∧
    ((sortByDateDesc gT data).filter (strat1 (digitsOnly target)) = [] →
      (sortByDateDesc gT data).filter (strat2 (digitsOnly target)) = [] →
      findAllMatchingSms gT data target =
        sortByDateDesc gT (addMatches []
          ((sortByDateDesc gT data).filter (strat3 (digitsOnly target))))) := by
  refine ⟨?_, ?_, ?_⟩
  · intro h1
    have hm1 : 0 < (addMatches []
        ((sortByDateDesc gT data).filter (strat1 (digitsOnly target)))).length := by
      rcases Nat.eq_zero_or_pos (addMatches []
          ((sortByDateDesc gT data).filter (strat1 (digitsOnly target)))).length with h | h
      · exact absurd ((addMatches_nil_eq_nil_iff _).mp (List.length_eq_zero.mp h)) h1
      · exact h
    simp only [findAllMatchingSms]
    rw [if_pos hm1]
  · intro h1 h2
    have hm2 : 0 < (addMatches []
        ((sortByDateDesc gT data).filter (strat2 (digitsOnly target)))).length := by
      rcases Nat.eq_zero_or_pos (addMatches []
          ((sortByDateDesc gT data).filter (strat2 (digitsOnly target)))).length with h | h
      · exact absurd ((addMatches_nil_eq_nil_iff _).mp (List.length_eq_zero.mp h)) h2
      · exact h
    simp only [findAllMatchingSms]
    rw [h1]
    show sortByDateDesc gT
        (if (addMatches [] []).length > 0 then addMatches [] []
         else _) = _
    rw [if_neg (by simp [addMatches])]
    show sortByDateDesc gT
        (if 0 < (addMatches (addMatches [] [])
            ((sortByDateDesc gT data).filter (strat2 (digitsOnly target)))).length
         then _ else _) = _
    rw [if_pos (by simpa [addMatches] using hm2)]
    simp [addMatches]
  · intro h1 h2
    simp only [findAllMatchingSms]
    rw [h1, h2]
    rw [if_neg (by simp [addMatches]), if_neg (by simp [addMatches])]
    simp [addMatches]

/-- Witness for C1 at a concrete input with a strategy-1 hit. -/
theorem c1_first_matching_strategy_wins_witness :
    ((sortByDateDesc gtZero [smsExactRec, smsCcRec]).filter
        (strat1 (digitsOnly "+1234567890")) ≠ []) ∧
    findAllMatchingSms gtZero [smsExactRec, smsCcRec] "+1234567890" =
      sortByDateDesc gtZero (addMatches []
        ((sortByDateDesc gtZero [smsExactRec, smsCcRec]).filter
          (strat1 (digitsOnly "+1234567890")))) :=
  ⟨by decide,
    (c1_first_matching_strategy_wins gtZero [smsExactRec, smsCcRec] "+1234567890").1
      (by decide)⟩

/-! ## C7: a unique exact match is returned alone -/

/-- C7: whenever the record set contains exactly one record whose
digits-only number equals the digits-only target, `findAllMatchingSms`
returns exactly that record, regardless of what other records are
present. -/
theorem c7_unique_exact_match_returned_alone (gT : String → Int)
    (data : List SmsApiResponse) (target : String) (r : SmsApiResponse)
    (h : data.filter (strat1 (digitsOnly target)) = [r]) :
    findAllMatchingSms gT data target = [r] := by
  have hperm : (sortByDateDesc gT data).Perm data := List.perm_insertionSort _ _
  have hf : (sortByDateDesc gT data).filter (strat1 (digitsOnly target)) = [r] := by
    have hp := hperm.filter (strat1 (digitsOnly target))
    rw [h] at hp
    exact List.perm_singleton.mp hp
  simp only [findAllMatchingSms]
  rw [hf]
  rw [if_pos (by simp [addMatches])]
  simp [addMatches, sortByDateDesc]

/-- Witness for C7: the unique exact match is returned even with
country-code noise (`880` prefix, strategy-2 eligible) and suffix noise in
the set. -/
theorem c7_unique_exact_match_returned_alone_witness :
    ([smsNoiseBD, smsTargetRec, smsNoiseSuffix].filter
        (strat1 (digitsOnly "+1234567890")) = [smsTargetRec]) ∧
    findAllMatchingSms gtZero [smsNoiseBD, smsTargetRec, smsNoiseSuffix]
        "+1234567890" = [smsTargetRec] :=
  ⟨by decide,
    c7_unique_exact_match_returned_alone gtZero
      [smsNoiseBD, smsTargetRec, smsNoiseSuffix] "+1234567890" smsTargetRec
      (by decide)⟩

/-! ## C6: strategy order in the legacy single-match path -/

/-- C6: in `findMatchingSms`, the fourth (fuzzy) strategy is consulted
only when strategies 1, 2 and 3 match no record (first conjunct), and
whenever an earlier strategy matches some record, the returned record is
matched by the earliest matching strategy (second conjunct). -/
theorem c6_findOne_fuzzy_only_as_fallback (gT : String → Int)
    (data : List SmsApiResponse) (target : String) :
    ((∀ r ∈ data, strat1 (digitsOnly target) r = false ∧
        strat2 (digitsOnly target) r = false ∧ strat3 (digitsOnly target) r = false) →
      findMatchingSms gT data target =
        (sortByDateDesc gT data).find? (strat4 (digitsOnly target))) ∧
    ((∃ r ∈ data, strat1 (digitsOnly target) r = true ∨
        strat2 (digitsOnly target) r = true ∨ strat3 (digitsOnly target) r = true) →
      ∃ m, findMatchingSms gT data target = some m ∧
        (strat1 (digitsOnly target) m = true ∨
          ((∀ r ∈ data, strat1 (digitsOnly target) r = false) ∧
            strat2 (digitsOnly target) m = true) ∨
          ((∀ r ∈ data, strat1 (digitsOnly target) r = false ∧
              strat2 (digitsOnly target) r = false) ∧
            strat3 (digitsOnly target) m = true))) := by
  have hmem : ∀ x : SmsApiResponse, x ∈ sortByDateDesc gT data ↔ x ∈ data := by
    intro x
    exact (List.perm_insertionSort _ _).mem_iff
  constructor
  · intro h
    have hf1 : (sortByDateDesc gT data).find? (strat1 (digitsOnly target)) = none :=
      List.find?_eq_none.mpr fun x hx => by
        simp [(h x ((hmem x).mp hx)).1]
    have hf2 : (sortByDateDesc gT data).find? (strat2 (digitsOnly target)) = none :=
      List.find?_eq_none.mpr fun x hx => by
        simp [(h x ((hmem x).mp hx)).2.1]
    have hf3 : (sortByDateDesc gT data).find? (strat3 (digitsOnly target)) = none :=
      List.find?_eq_none.mpr fun x hx => by
        simp [(h x ((hmem x).mp hx)).2.2]
    simp only [findMatchingSms, hf1, hf2, hf3]
  · intro hex
    by_cases h1 : ∃ r ∈ data, strat1 (digitsOnly target) r = true
    · obtain ⟨r, hr, hp⟩ := h1
      have hs : ((sortByDateDesc gT data).find? (strat1 (digitsOnly target))).isSome :=
        List.find?_isSome.mpr ⟨r, (hmem r).mpr hr, hp⟩
      obtain ⟨m, hm⟩ := Option.isSome_iff_exists.mp hs
      refine ⟨m, ?_, Or.inl (List.find?_some hm)⟩
      simp only [findMatchingSms, hm]
    · have hall1 : ∀ r ∈ data, strat1 (digitsOnly target) r = false := by
        intro r hr
        by_contra hne
        exact h1 ⟨r, hr, by simpa using hne⟩
      have hf1 : (sortByDateDesc gT data).find? (strat1 (digitsOnly target)) = none :=
        List.find?_eq_none.mpr fun x hx => by simp [hall1 x ((hmem x).mp hx)]
      by_cases h2 : ∃ r ∈ data, strat2 (digitsOnly target) r = true
      · obtain ⟨r, hr, hp⟩ := h2
        have hs : ((sortByDateDesc gT data).find? (strat2 (digitsOnly target))).isSome :=
          List.find?_isSome.mpr ⟨r, (hmem r).mpr hr, hp⟩
        obtain ⟨m, hm⟩ := Option.isSome_iff_exists.mp hs
        refine ⟨m, ?_, Or.inr (Or.inl ⟨hall1, List.find?_some hm⟩)⟩
        simp only [findMatchingSms, hf1, hm]
      · have hall2 : ∀ r ∈ data, strat2 (digitsOnly target) r = false := by
          intro r hr
          by_contra hne
          exact h2 ⟨r, hr, by simpa using hne⟩
        have hf2 : (sortByDateDesc gT data).find? (strat2 (digitsOnly target)) = none :=
          List.find?_eq_none.mpr fun x hx => by simp [hall2 x ((hmem x).mp hx)]
        obtain ⟨r, hr, hp⟩ := hex
        have hp3 : strat3 (digitsOnly target) r = true := by
          rcases hp with h | h | h
          · exact absurd (hall1 r hr) (by simp [h])
          · exact absurd (hall2 r hr) (by simp [h])
          · exact h
        have hs : ((sortByDateDesc gT data).find? (strat3 (digitsOnly target))).isSome :=
          List.find?_isSome.mpr ⟨r, (hmem r).mpr hr, hp3⟩
        obtain ⟨m, hm⟩ := Option.isSome_iff_exists.mp hs
        refine ⟨m, ?_, Or.inr (Or.inr ⟨fun x hx => ⟨hall1 x hx, hall2 x hx⟩,
          List.find?_some hm⟩)⟩
        simp only [findMatchingSms, hf1, hf2, hm]

/-- Witness for C6 at a concrete record set whose only record matches via
strategy 3 alone. -/
theorem c6_findOne_fuzzy_only_as_fallback_witness :
    (∃ r ∈ [smsSuffixRec], strat1 (digitsOnly "+1234567890") r = true ∨
        strat2 (digitsOnly "+1234567890") r = true ∨
        strat3 (digitsOnly "+1234567890") r = true) ∧
    (∃ m, findMatchingSms gtZero [smsSuffixRec] "+1234567890" = some m ∧
      (strat1 (digitsOnly "+1234567890") m = true ∨
        ((∀ r ∈ [smsSuffixRec], strat1 (digitsOnly "+1234567890") r = false) ∧
          strat2 (digitsOnly "+1234567890") m = true) ∨
        ((∀ r ∈ [smsSuffixRec], strat1 (digitsOnly "+1234567890") r = false ∧
            strat2 (digitsOnly "+1234567890") r = false) ∧
          strat3 (digitsOnly "+1234567890") m = true))) :=
  ⟨by decide,
    (c6_findOne_fuzzy_only_as_fallback gtZero [smsSuffixRec] "+1234567890").2
      (by decide)⟩

/-! ## C8: normalize is idempotent on accepted input -/

/-- Every successful result of `normalizePhoneNumber` consists only of
digit-or-plus characters and begins with `'+'`; such strings are fixed
points of the normalizer. -/
theorem normalize_fixed_on_plus_digit (y : List Char)
    (hk : ∀ c ∈ y, keepDigitPlus c = true) (hp : startsWithPlus y = true) :
    normalizePhoneNumber y = some y := by
  have hs : stripNonDigitPlus y = y := List.filter_eq_self.mpr hk
  unfold normalizePhoneNumber
  rw [hs, if_pos hp]

/-- C8: `normalize` is idempotent on accepted input — whenever
`normalizePhoneNumber x` is non-null with value `y`, normalizing `y`
again returns `y` itself. -/
theorem c8_normalize_idempotent (x y : List Char)
    (h : normalizePhoneNumber x = some y) : normalizePhoneNumber y = some y := by
  have hcl : ∀ c ∈ stripNonDigitPlus x, keepDigitPlus c = true :=
    fun c hc => List.of_mem_filter hc
  simp only [normalizePhoneNumber] at h
  split_ifs at h with h1 h2 h3 h4 h5 h6 h7 h8 <;>
    simp only [Option.some.injEq] at h <;> subst h
  · exact normalize_fixed_on_plus_digit _ hcl h1
  · refine normalize_fixed_on_plus_digit _ ?_ rfl
    intro c hc
    simp only [List.mem_cons] at hc
    rcases hc with rfl | rfl | hc
    · decide
    · decide
    · exact hcl c hc
  · refine normalize_fixed_on_plus_digit _ ?_ rfl
    intro c hc
    simp only [List.mem_cons] at hc
    rcases hc with rfl | hc
    · decide
    · exact hcl c hc
  · refine normalize_fixed_on_plus_digit _ ?_ rfl
    intro c hc
    simp only [List.mem_cons] at hc
    rcases hc with rfl | rfl | rfl | rfl | hc
    · decide
    · decide
    · decide
    · decide
    · exact hcl c (List.mem_of_mem_drop hc)
  · refine normalize_fixed_on_plus_digit _ ?_ rfl
    intro c hc
    simp only [List.mem_cons] at hc
    rcases hc with rfl | hc
    · decide
    · exact hcl c hc
  · refine normalize_fixed_on_plus_digit _ ?_ rfl
    intro c hc
    simp only [List.mem_cons] at hc
    rcases hc with rfl | rfl | rfl | hc
    · decide
    · decide
    · decide
    · exact hcl c hc
  · refine normalize_fixed_on_plus_digit _ ?_ rfl
    intro c hc
    simp only [List.mem_cons] at hc
    rcases hc with rfl | hc
    · decide
    · exact hcl c hc
  · refine normalize_fixed_on_plus_digit _ ?_ rfl
    intro c hc
    simp only [List.mem_cons] at hc
    rcases hc with rfl | hc
    · decide
    · exact hcl c hc

/-- Witness for C8 at the concrete accepted input `"1234567890"`. -/
theorem c8_normalize_idempotent_witness :
    normalizePhoneNumber "1234567890".data = some "+1234567890".data ∧
      normalizePhoneNumber "+1234567890".data = some "+1234567890".data :=
  ⟨by decide, c8_normalize_idempotent "1234567890".data "+1234567890".data (by decide)⟩

/-! ## C3: shape of the detector's output -/

/-- Every successful result of `normalizePhoneNumber` begins with `'+'`,
and its length lies in 11-16 whenever the cleaned input did not itself
begin with `'+'` (every branch except the `'+'`-passthrough appends a
country prefix to an input of guarded length). -/
theorem normalize_output_shape (x y : List Char)
    (h : normalizePhoneNumber x = some y) :
    startsWithPlus y = true ∧
      (startsWithPlus (stripNonDigitPlus x) = false →
        11 ≤ y.length ∧ y.length ≤ 16) := by
  simp only [normalizePhoneNumber] at h
  split_ifs at h with h1 h2 h3 h4 h5 h6 h7 h8 <;>
    simp only [Option.some.injEq] at h <;> subst h
  · exact ⟨h1, fun hc => by rw [h1] at hc; cases hc⟩
  · have hl : (stripNonDigitPlus x).length = 10 := by
      have := (Bool.and_eq_true _ _).mp h2
      simpa using this.1
    exact ⟨rfl, fun _ => by simp [hl]⟩
  · have hl : (stripNonDigitPlus x).length = 11 := by
      have := (Bool.and_eq_true _ _).mp h3
      have := (Bool.and_eq_true _ _).mp this.1
      simpa using this.1
    exact ⟨rfl, fun _ => by simp [hl]⟩
  · have hl : (stripNonDigitPlus x).length = 11 := by
      have := (Bool.and_eq_true _ _).mp h4
      have := (Bool.and_eq_true _ _).mp this.1
      simpa using this.1
    exact ⟨rfl, fun _ => by simp [hl]⟩
  · have hl : (stripNonDigitPlus x).length = 13 := by
      have := (Bool.and_eq_true _ _).mp h5
      have := (Bool.and_eq_true _ _).mp this.1
      simpa using this.1
    exact ⟨rfl, fun _ => by simp [hl]⟩
  · have hl : (stripNonDigitPlus x).length = 10 := by
      have := (Bool.and_eq_true _ _).mp h6
      simpa using this.1
    exact ⟨rfl, fun _ => by simp [hl]⟩
  · have hl : (stripNonDigitPlus x).length = 12 := by
      have := (Bool.and_eq_true _ _).mp h7
      have := (Bool.and_eq_true _ _).mp this.1
      simpa using this.1
    exact ⟨rfl, fun _ => by simp [hl]⟩
  · exact ⟨rfl, fun _ => by simp; omega⟩

theorem mem_foldl_detectStep :
    ∀ (ws : List (List Char)) (acc : List (List Char)) (lc : List Char),
      lc ∈ ws.foldl detectStep acc →
        lc ∈ acc ∨ ∃ w ∈ ws, normalizePhoneNumber (cleanWord w) = some lc := by
  intro ws
  induction ws with
  | nil => intro acc lc h; exact Or.inl (by simpa using h)
  | cons w ws ih =>
    intro acc lc h
    rcases ih (detectStep acc w) lc (by simpa using h) with h' | ⟨w', hw', hn⟩
    · have hacc : lc ∈ acc ∨ normalizePhoneNumber (cleanWord w) = some lc := by
        simp only [detectStep] at h'
        cases hfind : PHONE_PATTERNS.find? (fun p => rmatch p (cleanWord w)) with
        | none => rw [hfind] at h'; exact Or.inl h'
        | some p =>
          rw [hfind] at h'
          cases hnorm : normalizePhoneNumber (cleanWord w) with
          | none => rw [hnorm] at h'; exact Or.inl h'
          | some nn =>
            rw [hnorm] at h'
            have h2 : lc ∈ (if acc.contains nn = true then acc else acc ++ [nn]) := h'
            by_cases hc : acc.contains nn = true
            · rw [if_pos hc] at h2; exact Or.inl h2
            · rw [if_neg hc] at h2
              rcases List.mem_append.mp h2 with h'' | h''
              · exact Or.inl h''
              · have hlcnn : lc = nn := by simpa using h''
                rw [hlcnn]
                exact Or.inr rfl
      rcases hacc with h'' | h''
      · exact Or.inl h''
      · exact Or.inr ⟨w, List.mem_cons_self _ _, h''⟩
    · exact Or.inr ⟨w', List.mem_cons_of_mem _ hw', hn⟩

theorem detect_mem_normalized (t : String) (n : String)
    (h : n ∈ detectPhoneNumbers t) :
    ∃ w ∈ words t, normalizePhoneNumber (cleanWord w) = some n.data := by
  unfold detectPhoneNumbers at h
  rcases List.mem_map.mp h with ⟨lc, hlc, rfl⟩
  rcases mem_foldl_detectStep (words t) [] lc hlc with h' | ⟨w, hw, hn⟩
  · cases h'
  · exact ⟨w, hw, hn⟩

/-- C3 amended: every element of `detect`'s output is the successful
`normalizePhoneNumber` result of some whitespace token of the text and
begins with `'+'`; its length lies in 11-16 whenever the token's cleaned
digits-plus form does not itself begin with `'+'`.  Already-international
(`'+'`-prefixed) tokens are passed through with no length check, because
`detectPhoneNumbers` never consults `isValidPhoneNumber`. -/
theorem c3_detect_outputs_normalized_with_plus_passthrough (t : String) (n : String)
    (h : n ∈ detectPhoneNumbers t) :
    startsWithPlus n.data = true ∧
      ∃ w ∈ words t, normalizePhoneNumber (cleanWord w) = some n.data ∧
        (startsWithPlus (stripNonDigitPlus (cleanWord w)) = true ∨
          (11 ≤ n.length ∧ n.length ≤ 16)) := by
  obtain ⟨w, hw, hn⟩ := detect_mem_normalized t n h
  obtain ⟨hplus, hlen⟩ := normalize_output_shape _ _ hn
  refine ⟨hplus, w, hw, hn, ?_⟩
  by_cases hsw : startsWithPlus (stripNonDigitPlus (cleanWord w)) = true
  · exact Or.inl hsw
  · exact Or.inr (hlen (by simpa using hsw))

/-- Witness for C3 at a concrete text whose single token is not
`'+'`-prefixed, so the 11-16 length bound applies. -/
theorem c3_detect_outputs_normalized_with_plus_passthrough_witness :
    ("+1234567890" ∈ detectPhoneNumbers "1234567890") ∧
      (startsWithPlus ("+1234567890" : String).data = true ∧
        ∃ w ∈ words "1234567890",
          normalizePhoneNumber (cleanWord w) = some ("+1234567890" : String).data ∧
            (startsWithPlus (stripNonDigitPlus (cleanWord w)) = true ∨
              (11 ≤ ("+1234567890" : String).length ∧
                ("+1234567890" : String).length ≤ 16))) :=
  ⟨by decide,
    c3_detect_outputs_normalized_with_plus_passthrough "1234567890" "+1234567890"
      (by decide)⟩

/-! ## C5: texts with few digits yield no detection

The original claim (about maximal digit runs) fails because separators
are stripped inside a token before the patterns are tested.  The amended bound is per token:
six of the seven patterns require at least seven digit characters, and
the generic pattern accepts at most-six-digit tokens only when the token
is exactly six digits, which `normalizePhoneNumber` rejects. -/

/-- Characterisation of matching a concatenation. -/
theorem mem_run_cat {r q : RE} {s t : List Char} :
    t ∈ run (RE.cat r q) s ↔ ∃ u ∈ run r s, t ∈ run q u := by
  simp [run, List.mem_flatMap]

/-- Characterisation of matching an optional expression. -/
theorem mem_run_opt {r : RE} {s t : List Char} :
    t ∈ run (RE.opt r) s ↔ t ∈ run r s ∨ t = s := by
  simp [run]

/-- Characterisation of matching the empty expression. -/
theorem mem_run_eps {s t : List Char} : t ∈ run RE.eps s ↔ t = s := by
  simp [run]

/-- Characterisation of matching a character class. -/
theorem mem_run_cls {cc : CC} {s t : List Char} :
    t ∈ run (RE.cls cc) s ↔ ∃ c, s = c :: t ∧ cc.test c = true := by
  cases s with
  | nil => simp [run]
  | cons c s' =>
    rw [run]
    constructor
    · intro h
      split at h
      next hc =>
        have ht : t = s' := by simpa using h
        exact ⟨c, by rw [ht], hc⟩
      next hc => simp at h
    · rintro ⟨c', heq, htest⟩
      injection heq with h1 h2
      subst h1
      subst h2
      rw [if_pos htest]
      simp

/-- A digit-only class only accepts digit characters. -/
theorem isDigitCh_of_test {cc : CC} {c : Char} (h : cc.test c = true)
    (hd : cc.digitOnly = true) : isDigitCh c = true := by
  cases cc with
  | digit => exact h
  | d19 =>
    simp [CC.test] at h
    simp [isDigitCh]
    omega
  | d29 =>
    simp [CC.test] at h
    simp [isDigitCh]
    omega
  | d39 =>
    simp [CC.test] at h
    simp [isDigitCh]
    omega
  | d69 =>
    simp [CC.test] at h
    simp [isDigitCh]
    omega
  | sep => simp [CC.digitOnly] at hd
  | ch a =>
    simp [CC.test] at h
    subst h
    simpa [CC.digitOnly] using hd

/-- Digit count of a cons. -/
theorem countD_cons (c : Char) (l : List Char) :
    countD (c :: l) = countD l + (if isDigitCh c then 1 else 0) := by
  simp [countD, List.countP_cons]

/-- A match of `r` consumes at least `minDigits r` digit characters. -/
theorem countD_le_of_mem_run :
    ∀ (r : RE) (s t : List Char), t ∈ run r s → minDigits r + countD t ≤ countD s := by
  intro r
  induction r with
  | eps =>
    intro s t h
    rw [mem_run_eps] at h
    subst h
    simp [minDigits]
  | cls cc =>
    intro s t h
    rw [mem_run_cls] at h
    obtain ⟨c, rfl, hc⟩ := h
    rw [countD_cons, minDigits]
    by_cases hd : cc.digitOnly = true
    · rw [if_pos hd, isDigitCh_of_test hc hd]
      simp
      omega
    · rw [if_neg hd]
      omega
  | cat r q ihr ihq =>
    intro s t h
    rw [mem_run_cat] at h
    obtain ⟨u, hu, ht⟩ := h
    have h1 := ihr s u hu
    have h2 := ihq u t ht
    rw [minDigits]
    omega
  | opt r ihr =>
    intro s t h
    rw [mem_run_opt] at h
    rw [minDigits]
    rcases h with h | rfl
    · have := ihr s t h
      omega
    · omega

/-- A match of `\d{n}` consumes exactly `n` digit characters. -/
theorem mem_run_reExact_digit :
    ∀ (n : Nat) (s t : List Char), t ∈ run (reExact dC n) s →
      ∃ u, s = u ++ t ∧ (∀ c ∈ u, isDigitCh c = true) ∧ u.length = n := by
  intro n
  induction n with
  | zero =>
    intro s t h
    rw [reExact, mem_run_eps] at h
    exact ⟨[], by simp [h], by simp, rfl⟩
  | succ n ih =>
    intro s t h
    rw [reExact, mem_run_cat] at h
    obtain ⟨u, hu, ht⟩ := h
    rw [show dC = RE.cls CC.digit from rfl, mem_run_cls] at hu
    obtain ⟨c, rfl, hc⟩ := hu
    obtain ⟨v, rfl, hv, hlen⟩ := ih u t ht
    exact ⟨c :: v, rfl, by
      intro x hx
      rcases List.mem_cons.mp hx with rfl | hx
      · exact hc
      · exact hv x hx, by simp [hlen]⟩

/-- A full match of `\d{0,n}` is at most `n` digit characters. -/
theorem all_digit_of_full_reUpTo :
    ∀ (n : Nat) (s : List Char), [] ∈ run (reUpTo dC n) s →
      (∀ c ∈ s, isDigitCh c = true) ∧ s.length ≤ n := by
  intro n
  induction n with
  | zero =>
    intro s h
    rw [reUpTo, mem_run_eps] at h
    subst h
    simp
  | succ n ih =>
    intro s h
    rw [reUpTo, mem_run_opt] at h
    rcases h with h | h
    · rw [mem_run_cat] at h
      obtain ⟨u, hu, ht⟩ := h
      rw [show dC = RE.cls CC.digit from rfl, mem_run_cls] at hu
      obtain ⟨c, rfl, hc⟩ := hu
      obtain ⟨hall, hlen⟩ := ih u ht
      refine ⟨?_, by simp; omega⟩
      intro x hx
      rcases List.mem_cons.mp hx with rfl | hx
      · exact hc
      · exact hall x hx
    · subst h
      simp

/-- A full match of `\d{lo,lo+ex}` is all digits of bounded length. -/
theorem full_reRep_digit {lo ex : Nat} {s : List Char}
    (h : [] ∈ run (reRep dC lo ex) s) :
    (∀ c ∈ s, isDigitCh c = true) ∧ lo ≤ s.length ∧ s.length ≤ lo + ex := by
  rw [reRep, mem_run_cat] at h
  obtain ⟨t, ht, hup⟩ := h
  obtain ⟨u, rfl, hu, hulen⟩ := mem_run_reExact_digit lo s t ht
  obtain ⟨htall, htlen⟩ := all_digit_of_full_reUpTo ex t hup
  refine ⟨?_, ?_, ?_⟩
  · intro c hc
    rcases List.mem_append.mp hc with hc | hc
    · exact hu c hc
    · exact htall c hc
  · simp [hulen]
  · simp [hulen]
    omega

/-- On all-digit strings the digit count is the length. -/
theorem countD_eq_length_of_all_digit {l : List Char}
    (h : ∀ c ∈ l, isDigitCh c = true) : countD l = l.length :=
  List.countP_eq_length.mpr h

/-- With at most six digits available, the generic pattern can only match
a token that is exactly six digit characters (its optional first group
would cost a seventh digit). -/
theorem patGeneric_few_digits {s : List Char}
    (hm : rmatch patGeneric s = true) (hc : countD s ≤ 6) :
    (∀ c ∈ s, isDigitCh c = true) ∧ s.length = 6 := by
  have h0 : [] ∈ run patGeneric s := of_decide_eq_true hm
  have h1 : [] ∈ run (RE.cat
      (ropt (reSeq [ropt (chr '+'), RE.cls CC.d19, reRep dC 0 3, ropt sepC]))
      (RE.cat (reRep dC 6 8) RE.eps)) s := h0
  rw [mem_run_cat] at h1
  obtain ⟨t, ht, h2⟩ := h1
  rw [mem_run_cat] at h2
  obtain ⟨u, hu, h3⟩ := h2
  rw [mem_run_eps] at h3
  subst h3
  obtain ⟨htall, htlo, hthi⟩ := full_reRep_digit hu
  rw [ropt, mem_run_opt] at ht
  rcases ht with ht | rfl
  · exfalso
    have hmin := countD_le_of_mem_run _ s t ht
    have hmin1 : minDigits
        (reSeq [ropt (chr '+'), RE.cls CC.d19, reRep dC 0 3, ropt sepC]) = 1 := by decide
    rw [hmin1] at hmin
    have hct : countD t = t.length := countD_eq_length_of_all_digit htall
    omega
  · have hct : countD t = t.length := countD_eq_length_of_all_digit htall
    exact ⟨htall, by omega⟩

/-- The normalizer rejects a bare six-digit string: no branch guard
accepts length 6. -/
theorem normalize_none_of_six_digits {l : List Char}
    (hd : ∀ c ∈ l, isDigitCh c = true) (hl : l.length = 6) :
    normalizePhoneNumber l = none := by
  have hstrip : stripNonDigitPlus l = l :=
    List.filter_eq_self.mpr fun c hc => by simp [keepDigitPlus, hd c hc]
  have hsw : startsWithPlus l = false := by
    cases l with
    | nil => simp at hl
    | cons c rest =>
      have hc := hd c (List.mem_cons_self _ _)
      have : c ≠ '+' := by
        intro hplus
        rw [hplus] at hc
        simp [isDigitCh] at hc
      simpa [startsWithPlus] using this
  simp only [normalizePhoneNumber, hstrip, hl, hsw]
  norm_num

/-- A token holding at most six digit characters contributes nothing to
the detector accumulator. -/
theorem detectStep_id_of_few_digits (w : List Char) (hw : countD w ≤ 6)
    (acc : List (List Char)) : detectStep acc w = acc := by
  have hcw : countD (cleanWord w) ≤ 6 :=
    le_trans (List.Sublist.countP_le _ (List.filter_sublist _)) hw
  cases hfind : PHONE_PATTERNS.find? (fun p => rmatch p (cleanWord w)) with
  | none => simp [detectStep, hfind]
  | some p =>
    have hp : p ∈ PHONE_PATTERNS := List.mem_of_find?_eq_some hfind
    have hm0 := List.find?_some hfind
    have hm : rmatch p (cleanWord w) = true := hm0
    have hmem : [] ∈ run p (cleanWord w) := of_decide_eq_true hm
    have hmin := countD_le_of_mem_run p (cleanWord w) [] hmem
    have hc0 : countD ([] : List Char) = 0 := rfl
    simp only [PHONE_PATTERNS, List.mem_cons, List.not_mem_nil, or_false] at hp
    have hnone : normalizePhoneNumber (cleanWord w) = none := by
      rcases hp with rfl | rfl | rfl | rfl | rfl | rfl | rfl
      · exfalso
        have h10 : minDigits patUS = 10 := by decide
        omega
      · exfalso
        have h8 : minDigits patIntl = 8 := by decide
        omega
      · obtain ⟨hall, hlen⟩ := patGeneric_few_digits hm hcw
        exact normalize_none_of_six_digits hall hlen
      · exfalso
        have h10 : minDigits patBD = 10 := by decide
        omega
      · exfalso
        have h10 : minDigits patIN = 10 := by decide
        omega
      · exfalso
        have h9 : minDigits patUK = 9 := by decide
        omega
      · exfalso
        have h10 : minDigits patNumeric = 10 := by decide
        omega
    simp [detectStep, hfind, hnone]

/-- C5 amended: for every input text in which every whitespace-delimited
token contains at most 6 digit characters in total, `detectPhoneNumbers`
returns the empty sequence.  (Counting per maximal digit run, as the
original claim does, is refuted above at `"123-456-7890"`.) -/
theorem c5_detect_empty_of_few_digits_per_token (t : String)
    (h : ∀ w ∈ words t, countD w ≤ 6) : detectPhoneNumbers t = [] := by
  have key : ∀ ws : List (List Char), (∀ w ∈ ws, countD w ≤ 6) →
      ws.foldl detectStep [] = [] := by
    intro ws
    induction ws with
    | nil => intro _; rfl
    | cons w ws ih =>
      intro hws
      show ws.foldl detectStep (detectStep [] w) = []
      rw [detectStep_id_of_few_digits w (hws w (List.mem_cons_self _ _)) []]
      exact ih fun w' hw' => hws w' (List.mem_cons_of_mem _ hw')
  unfold detectPhoneNumbers
  rw [key (words t) h]
  rfl

/-- Witness for C5 at a concrete text whose only digit-bearing token has
exactly six digits. -/
theorem c5_detect_empty_of_few_digits_per_token_witness :
    (∀ w ∈ words "call 123-456 now", countD w ≤ 6) ∧
      detectPhoneNumbers "call 123-456 now" = [] :=
  ⟨by decide, c5_detect_empty_of_few_digits_per_token "call 123-456 now" (by decide)⟩
